import Mathlib

/-!
A shallow embedding of `argcomb/argcomb.py` (the `ArgCombiner` core) and proofs
about it.

Modelling notes:
* Python's dynamic `Expr` union is embedded as the inductive `Expr`.  Scalar
  literals are covered by `null` / `bool` / `int` / `str` (floating point
  literals behave exactly like the other scalars — leaves of evaluation and of
  `flatten` — and are not modelled separately).  Callable (deferred)
  expressions are Python closures and are not modelled; no property below
  concerns them.
* A Python generator that yields candidate pairs and may raise is embedded as
  `Gen`: the list of pairs yielded before termination or before the exception,
  together with the exception, if any, that ended the enumeration.
* Python `dict`s (`Env`, `OrderedDict` of argument values, dict-form selector
  choices) are embedded as association lists in insertion order, with
  first-match lookup; `dict(list(d.items()) + [(k, v)])` is `envSet`, which
  replaces the value at the existing position or appends a new entry.
* The source raises `ArgcombException` with distinct messages for an absent
  environment variable (`lookup_env`) and for a selector key absent from its
  choices; these two raise sites are embedded as the distinct constructors
  `Err.undefinedVariable` and `Err.unknownChoice`.  The `ValueError` raised in
  `execute_list` when the tail evaluates to a non-list is `Err.internalShape`.
-/

/-- The expression domain (`Expr` in the source).  `selL` / `selD` are the two
shapes of `Selector` (`choices` a list, resp. a dict); `arg` carries the
`append` / `delete` flags of the `Arg` namedtuple; `letE` is `Let`. -/
inductive Expr where
  | null : Expr
  | bool (b : Bool) : Expr
  | int (n : Int) : Expr
  | str (s : String) : Expr
  | list (xs : List Expr) : Expr
  | arg (name : String) (values : List Expr) (append : Bool) (delete : Bool) : Expr
  | selL (which : Expr) (choices : List Expr) : Expr
  | selD (which : Expr) (choices : List (Expr × Expr)) : Expr
  | letE (var : String) (value : Expr) (ifUndefined : Bool) : Expr

mutual

/-- Decidable equality on expressions (Python `==` on these values). -/
def Expr.decEq : (a b : Expr) → Decidable (a = b)
  | .null, .null => isTrue rfl
  | .bool a, .bool b =>
      if h : a = b then isTrue (by rw [h]) else isFalse (by simp [h])
  | .int a, .int b =>
      if h : a = b then isTrue (by rw [h]) else isFalse (by simp [h])
  | .str a, .str b =>
      if h : a = b then isTrue (by rw [h]) else isFalse (by simp [h])
  | .list xs, .list ys =>
      match Expr.decEqList xs ys with
      | isTrue h => isTrue (by rw [h])
      | isFalse h => isFalse (by simp [h])
  | .arg n1 v1 a1 d1, .arg n2 v2 a2 d2 =>
      if h : n1 = n2 ∧ a1 = a2 ∧ d1 = d2 then
        match Expr.decEqList v1 v2 with
        | isTrue hv => isTrue (by rw [h.1, h.2.1, h.2.2, hv])
        | isFalse hv => isFalse (by simp [hv])
      else isFalse (fun hc => by injection hc with h1 h2 h3 h4; exact h ⟨h1, h3, h4⟩)
  | .selL w1 c1, .selL w2 c2 =>
      match Expr.decEq w1 w2, Expr.decEqList c1 c2 with
      | isTrue h1, isTrue h2 => isTrue (by rw [h1, h2])
      | isFalse h1, _ => isFalse (by simp [h1])
      | _, isFalse h2 => isFalse (by simp [h2])
  | .selD w1 c1, .selD w2 c2 =>
      match Expr.decEq w1 w2, Expr.decEqPairs c1 c2 with
      | isTrue h1, isTrue h2 => isTrue (by rw [h1, h2])
      | isFalse h1, _ => isFalse (by simp [h1])
      | _, isFalse h2 => isFalse (by simp [h2])
  | .letE v1 e1 b1, .letE v2 e2 b2 =>
      if h : v1 = v2 ∧ b1 = b2 then
        match Expr.decEq e1 e2 with
        | isTrue he => isTrue (by rw [h.1, h.2, he])
        | isFalse he => isFalse (by simp [he])
      else isFalse (fun hc => by injection hc with h1 h2 h3; exact h ⟨h1, h3⟩)
  | .null, .bool _ | .null, .int _ | .null, .str _ | .null, .list _
  | .null, .arg .. | .null, .selL .. | .null, .selD .. | .null, .letE .. =>
      isFalse (by simp)
  | .bool _, .null | .bool _, .int _ | .bool _, .str _ | .bool _, .list _
  | .bool _, .arg .. | .bool _, .selL .. | .bool _, .selD .. | .bool _, .letE .. =>
      isFalse (by simp)
  | .int _, .null | .int _, .bool _ | .int _, .str _ | .int _, .list _
  | .int _, .arg .. | .int _, .selL .. | .int _, .selD .. | .int _, .letE .. =>
      isFalse (by simp)
  | .str _, .null | .str _, .bool _ | .str _, .int _ | .str _, .list _
  | .str _, .arg .. | .str _, .selL .. | .str _, .selD .. | .str _, .letE .. =>
      isFalse (by simp)
  | .list _, .null | .list _, .bool _ | .list _, .int _ | .list _, .str _
  | .list _, .arg .. | .list _, .selL .. | .list _, .selD .. | .list _, .letE .. =>
      isFalse (by simp)
  | .arg .., .null | .arg .., .bool _ | .arg .., .int _ | .arg .., .str _
  | .arg .., .list _ | .arg .., .selL .. | .arg .., .selD .. | .arg .., .letE .. =>
      isFalse (by simp)
  | .selL .., .null | .selL .., .bool _ | .selL .., .int _ | .selL .., .str _
  | .selL .., .list _ | .selL .., .arg .. | .selL .., .selD .. | .selL .., .letE .. =>
      isFalse (by simp)
  | .selD .., .null | .selD .., .bool _ | .selD .., .int _ | .selD .., .str _
  | .selD .., .list _ | .selD .., .arg .. | .selD .., .selL .. | .selD .., .letE .. =>
      isFalse (by simp)
  | .letE .., .null | .letE .., .bool _ | .letE .., .int _ | .letE .., .str _
  | .letE .., .list _ | .letE .., .arg .. | .letE .., .selL .. | .letE .., .selD .. =>
      isFalse (by simp)

def Expr.decEqList : (xs ys : List Expr) → Decidable (xs = ys)
  | [], [] => isTrue rfl
  | [], _ :: _ => isFalse (by simp)
  | _ :: _, [] => isFalse (by simp)
  | x :: xs, y :: ys =>
      match Expr.decEq x y with
      | isFalse h1 => isFalse (by simp [h1])
      | isTrue h1 =>
          match Expr.decEqList xs ys with
          | isFalse h2 => isFalse (by simp [h2])
          | isTrue h2 => isTrue (by rw [h1, h2])

def Expr.decEqPairs : (xs ys : List (Expr × Expr)) → Decidable (xs = ys)
  | [], [] => isTrue rfl
  | [], _ :: _ => isFalse (by simp)
  | _ :: _, [] => isFalse (by simp)
  | (x1, x2) :: xs, (y1, y2) :: ys =>
      match Expr.decEq x1 y1 with
      | isFalse h1 => isFalse (by simp [h1])
      | isTrue h1 =>
          match Expr.decEq x2 y2 with
          | isFalse h2 => isFalse (by simp [h2])
          | isTrue h2 =>
              match Expr.decEqPairs xs ys with
              | isFalse h3 => isFalse (by simp [h3])
              | isTrue h3 => isTrue (by rw [h1, h2, h3])

end

instance : DecidableEq Expr := Expr.decEq

/-- Evaluation environments (`Env = Dict[str, Any]`), as an association list in
insertion order with first-match lookup. -/
abbrev Env := List (String × Expr)

/-- Errors raised by the core. -/
inductive Err where
  | undefinedVariable (key : String) : Err
  | unknownChoice (key : Expr) : Err
  | internalShape : Err
deriving DecidableEq

/-- `env[key]` as an `Option` (Python `key in env` / `env[key]`). -/
def envLookup : Env → String → Option Expr
  | [], _ => none
  | (k, v) :: rest, key => if k = key then some v else envLookup rest key

/-- Python `key in env`. -/
def envMem (env : Env) (key : String) : Bool :=
  (envLookup env key).isSome

/-- `lookup_env` from the source: return `env[key]` or raise. -/
def lookup_env (env : Env) (key : String) : Except Err Expr :=
  match envLookup env key with
  | none => .error (.undefinedVariable key)
  | some v => .ok v

/-- `dict(list(env.items()) + [(var, value)])`: the value at `var` is replaced
at its existing position, or a new entry is appended at the end. -/
def envSet : Env → String → Expr → Env
  | [], var, v => [(var, v)]
  | (k, w) :: rest, var, v =>
      if k = var then (var, v) :: rest else (k, w) :: envSet rest var v

/-- The embedding of a Python generator of `(expr, env)` candidates: the pairs
yielded in order, and the exception (if any) that ended the enumeration.  When
`err = some e`, `out` are exactly the candidates yielded before the raise. -/
structure Gen (α : Type) where
  out : List (α × Env)
  err : Option Err

instance [DecidableEq α] : DecidableEq (Gen α) := fun g h =>
  decidable_of_iff (g.out = h.out ∧ g.err = h.err)
    (by cases g; cases h; simp [Gen.mk.injEq])

/-- A generator that yields a single candidate and finishes. -/
def Gen.one (a : α) (env : Env) : Gen α := ⟨[(a, env)], none⟩

/-- A generator that raises before yielding anything. -/
def Gen.fail (e : Err) : Gen α := ⟨[], some e⟩

/-- Transform every candidate pair of a generator. -/
def Gen.mapP (f : α × Env → β × Env) (g : Gen α) : Gen β :=
  ⟨g.out.map f, g.err⟩

/-- Transform the value of every candidate of a generator. -/
def Gen.map (f : α → β) (g : Gen α) : Gen β :=
  Gen.mapP (fun p => (f p.1, p.2)) g

/-- The inner loop of a nested `for p in g: for q in f(p): yield q`, given the
candidates of the outer generator: run `f` on each outer candidate in turn,
stopping at the first exception. -/
def genBindAux (f : α × Env → Gen β) : List (α × Env) → Gen β
  | [] => ⟨[], none⟩
  | p :: ps =>
      match (f p).err with
      | some e => ⟨(f p).out, some e⟩
      | none => ⟨(f p).out ++ (genBindAux f ps).out, (genBindAux f ps).err⟩

/-- `for p in g: for q in f(p): yield q` — if some `f p` raises, the outer
generator is not pulled further; if all inner runs finish, the outer
generator's own exception (if any) ends the enumeration. -/
def Gen.bind (g : Gen α) (f : α × Env → Gen β) : Gen β :=
  match (genBindAux f g.out).err with
  | some _ => genBindAux f g.out
  | none => ⟨(genBindAux f g.out).out, g.err⟩

/-- Yield all of `g`, then all of `h` (used for a loop with two sequential
yield sources): if `g` raises, `h` is never reached. -/
def Gen.seq (g h : Gen α) : Gen α :=
  match g.err with
  | some _ => g
  | none => ⟨g.out ++ h.out, h.err⟩

/-- Python `s.startswith("@")`: the first character of `s` is `'@'`. -/
def isEnvRef (s : String) : Bool :=
  match s.data with
  | [] => false
  | c :: _ => c = '@'

/-- `which if not (isinstance(which, str) and which.startswith("@")) else
lookup_env(env, which)` — resolve a Selector's `which` against the
environment. -/
def resolveWhich (w : Expr) (env : Env) : Except Err Expr :=
  match w with
  | .str s => if isEnvRef s then lookup_env env s else .ok (.str s)
  | _ => .ok w

/-- Canonicalize a resolved `which` to a list of keys: `None` selects all
keys, a list is used as-is, any other value becomes a singleton. -/
def canonWhich (w : Expr) (allKeys : List Expr) : List Expr :=
  match w with
  | .null => allKeys
  | .list l => l
  | _ => [w]

/-- Key lookup in list-form choices (canonicalized in the source to the dict
`{0: c0, 1: c1, …}`). -/
def lookupChoiceL (xs : List Expr) (k : Expr) : Option Expr :=
  match k with
  | .int i =>
      if h : 0 ≤ i ∧ i.toNat < xs.length then some (xs.get ⟨i.toNat, h.2⟩)
      else none
  | _ => none

/-- Key lookup in dict-form choices (first match, as in a Python dict whose
keys are unique). -/
def lookupChoiceD : List (Expr × Expr) → Expr → Option Expr
  | [], _ => none
  | (k', v) :: rest, k => if k' = k then some v else lookupChoiceD rest k

/-- The keys of list-form choices: `0, 1, …, n-1`. -/
def keysL (xs : List Expr) : List Expr :=
  (List.range xs.length).map (fun i => Expr.int (Int.ofNat i))

/-- The keys of dict-form choices, in insertion order. -/
def keysD (cs : List (Expr × Expr)) : List Expr :=
  cs.map Prod.fst

theorem Expr.sizeOf_pos (e : Expr) : 0 < sizeOf e := by
  cases e <;> simp_arith

theorem sizeOf_lookupChoiceL {xs : List Expr} {k c : Expr}
    (h : lookupChoiceL xs k = some c) : sizeOf c < sizeOf xs := by
  unfold lookupChoiceL at h
  split at h
  · split at h
    · injection h with h
      subst h
      exact List.sizeOf_lt_of_mem (List.get_mem _ _ _)
    · cases h
  · cases h

theorem sizeOf_lookupChoiceD {cs : List (Expr × Expr)} {k c : Expr}
    (h : lookupChoiceD cs k = some c) : sizeOf c < sizeOf cs := by
  induction cs with
  | nil => cases h
  | cons p rest ih =>
      obtain ⟨k', v⟩ := p
      unfold lookupChoiceD at h
      split at h
      · injection h with h
        subst h
        simp only [List.cons.sizeOf_spec, Prod.mk.sizeOf_spec]
        omega
      · have := ih h
        simp only [List.cons.sizeOf_spec]
        omega

mutual

/-- `ArgCombiner.internal_execute`: evaluate `expr` against `env`, generating
`(new_expr, new_env)` candidates. -/
def internal_execute : Expr → Env → Gen Expr
  | .list xs, env => Gen.map Expr.list (execute_list xs env)
  | .arg name values app del, env =>
      Gen.map (fun vs => Expr.arg name vs app del) (execute_list values env)
  | .selL w xs, env =>
      match resolveWhich w env with
      | .error e => Gen.fail e
      | .ok wh => evalKeysL xs (canonWhich wh (keysL xs)) env
  | .selD w cs, env =>
      match resolveWhich w env with
      | .error e => Gen.fail e
      | .ok wh => evalKeysD cs (canonWhich wh (keysD cs)) env
  | .letE var value iu, env =>
      if !iu || !envMem env var then
        Gen.mapP (fun p => (Expr.letE var value iu, envSet p.2 var p.1))
          (internal_execute value env)
      else
        Gen.one (.letE var value iu) env
  | .null, env => Gen.one .null env
  | .bool b, env => Gen.one (.bool b) env
  | .int n, env => Gen.one (.int n) env
  | .str s, env => Gen.one (.str s) env
termination_by e env => (sizeOf e, 0, 0)
decreasing_by
  all_goals simp_wf
  all_goals
    first
      | (apply Prod.Lex.left; simp_arith; done)
      | (apply Prod.Lex.left; simp_arith; omega)

/-- `ArgCombiner.execute_list`: the cross-product of executing all elements of
`expr`, threading the environment left to right.  The tail is re-dispatched
through `internal_execute` and its result checked to be a list, exactly as in
the source. -/
def execute_list : List Expr → Env → Gen (List Expr)
  | [], env => ⟨[([], env)], none⟩
  | x :: rest, env =>
      Gen.bind (internal_execute x env) fun p =>
        Gen.bind (internal_execute (.list rest) p.2) fun q =>
          match q.1 with
          | .list l => ⟨[(p.1 :: l, q.2)], none⟩
          | _ => ⟨[], some .internalShape⟩
termination_by xs env => (sizeOf xs, 1, 0)
decreasing_by
  all_goals simp_wf
  all_goals
    first
      | (apply Prod.Lex.left; simp_arith; done)
      | (apply Prod.Lex.left; simp_arith; omega)
      | (apply Prod.Lex.left; have := Expr.sizeOf_pos x; simp_arith; omega)

/-- The per-key loop of the Selector branch, list-form choices: for each key
in order, an absent key raises `unknownChoice`, a present key yields every
candidate of its choice under the (unchanged) environment. -/
def evalKeysL : List Expr → List Expr → Env → Gen Expr
  | _, [], _ => ⟨[], none⟩
  | xs, k :: ks, env =>
      match h : lookupChoiceL xs k with
      | none => Gen.fail (.unknownChoice k)
      | some c => Gen.seq (internal_execute c env) (evalKeysL xs ks env)
termination_by xs ks env => (sizeOf xs, 1, ks.length)
decreasing_by
  all_goals simp_wf
  · apply Prod.Lex.left
    exact sizeOf_lookupChoiceL (by assumption)
  · apply Prod.Lex.right
    apply Prod.Lex.right
    omega

/-- The per-key loop of the Selector branch, dict-form choices. -/
def evalKeysD : List (Expr × Expr) → List Expr → Env → Gen Expr
  | _, [], _ => ⟨[], none⟩
  | cs, k :: ks, env =>
      match h : lookupChoiceD cs k with
      | none => Gen.fail (.unknownChoice k)
      | some c => Gen.seq (internal_execute c env) (evalKeysD cs ks env)
termination_by cs ks env => (sizeOf cs, 1, ks.length)
decreasing_by
  all_goals simp_wf
  · apply Prod.Lex.left
    exact sizeOf_lookupChoiceD (by assumption)
  · apply Prod.Lex.right
    apply Prod.Lex.right
    omega

end

mutual

/-- `ArgCombiner.flatten` on a non-list is a one-element list; on a list it
concatenates the flattenings of the elements. -/
def flatten : Expr → List Expr
  | .list xs => flattenList xs
  | .null => [.null]
  | .bool b => [.bool b]
  | .int n => [.int n]
  | .str s => [.str s]
  | .arg name values app del => [.arg name values app del]
  | .selL w cs => [.selL w cs]
  | .selD w cs => [.selD w cs]
  | .letE v e b => [.letE v e b]

def flattenList : List Expr → List Expr
  | [] => []
  | x :: xs => flatten x ++ flattenList xs

end

/-- Test for the `list` branch of `flatten` / `internal_execute`. -/
def Expr.isList : Expr → Bool
  | .list _ => true
  | _ => false

/-- The accumulated `arg_values: OrderedDict[str, List[Expr]]` mapping of
`interpret_args`, as an association list in insertion order. -/
abbrev ArgValues := List (String × List Expr)

/-- `name in arg_values` / `arg_values[name]` (first match). -/
def getVals : ArgValues → String → Option (List Expr)
  | [], _ => none
  | (k, v) :: rest, n => if k = n then some v else getVals rest n

/-- `arg_values[name] = vs`: replace at the existing position, else append. -/
def setVals : ArgValues → String → List Expr → ArgValues
  | [], n, vs => [(n, vs)]
  | (k, v) :: rest, n, vs =>
      if k = n then (n, vs) :: rest else (k, v) :: setVals rest n vs

/-- `del arg_values[name]`. -/
def delKey : ArgValues → String → ArgValues
  | [], _ => []
  | (k, v) :: rest, n => if k = n then rest else (k, v) :: delKey rest n

/-- One step of pass 1 of `interpret_args`: create an empty entry for a new
name, then extend it (`append`), delete it (`delete`), or overwrite it. -/
def accumStep (av : ArgValues) (e : Expr) : ArgValues :=
  match e with
  | .arg name values app del =>
      let av1 := if (getVals av name).isSome then av else av ++ [(name, [])]
      if app then setVals av1 name ((getVals av1 name).getD [] ++ values)
      else if del then delKey av1 name
      else setVals av1 name values
  | _ => av

/-- Pass 1 of `interpret_args`: scan the tokens, accumulating argument values. -/
def accumulate (exprs : List Expr) (av : ArgValues) : ArgValues :=
  exprs.foldl accumStep av

/-- Pass 2 of `interpret_args`: emit tokens in order.  An `Arg` whose name is
still in the mapping becomes the flag string followed by the accumulated
values, and its name is removed; an `Arg` whose name is absent is skipped; a
`Let` is dropped; anything else passes through. -/
def emit : List Expr → ArgValues → List Expr
  | [], _ => []
  | e :: rest, av =>
      match e with
      | .arg name _ _ _ =>
          match getVals av name with
          | some vs => Expr.str ("--" ++ name) :: (vs ++ emit rest (delKey av name))
          | none => emit rest av
      | .letE _ _ _ => emit rest av
      | _ => e :: emit rest av

/-- `ArgCombiner.interpret_args`. -/
def interpret_args (exprs : List Expr) : List Expr :=
  emit exprs (accumulate exprs [])

/-- The mapping state threaded by pass 2 (names already emitted are removed). -/
def emitState : List Expr → ArgValues → ArgValues
  | [], av => av
  | e :: rest, av =>
      match e with
      | .arg name _ _ _ =>
          match getVals av name with
          | some _ => emitState rest (delKey av name)
          | none => emitState rest av
      | _ => emitState rest av

example : interpret_args
    [.str "foo", .arg "bar" [.int 3] false false, .arg "bar" [.int 5] false false]
    = [.str "foo", .str "--bar", .int 5] := rfl

example : interpret_args
    [.str "foo", .arg "bar" [.int 3] false false, .arg "bar" [.int 5] true false]
    = [.str "foo", .str "--bar", .int 3, .int 5] := rfl

example : interpret_args
    [.str "foo", .arg "bar" [.int 3] false false, .arg "bar" [] false true]
    = [.str "foo"] := rfl

example : flatten (.list [.str "a", .list [.str "b", .list [.str "c"]]])
    = [.str "a", .str "b", .str "c"] := rfl

example : internal_execute (.str "hello") [] = ⟨[(.str "hello", [])], none⟩ := by
  simp [internal_execute, Gen.one]

example : internal_execute (.list [.str "a", .str "b"]) []
    = ⟨[(.list [.str "a", .str "b"], [])], none⟩ := by
  simp [internal_execute, execute_list, Gen.map, Gen.mapP, Gen.bind, genBindAux, Gen.one]

example : internal_execute (.selL .null [.str "a", .str "b"]) []
    = ⟨[(.str "a", []), (.str "b", [])], none⟩ := by
  simp [internal_execute, evalKeysL, resolveWhich, canonWhich, keysL, lookupChoiceL,
    Gen.seq, List.range_succ, Gen.one]

example : internal_execute
    (.list [.letE "@x" (.int 3) false, .selD (.str "@x") [(.int 3, .str "yes")]]) []
    = ⟨[(.list [.letE "@x" (.int 3) false, .str "yes"], [("@x", .int 3)])], none⟩ := by
  simp [internal_execute, execute_list, evalKeysD, Gen.map, Gen.mapP, Gen.bind,
    genBindAux, Gen.one, Gen.seq, Gen.fail, resolveWhich, canonWhich, keysD,
    lookupChoiceD, lookup_env, envLookup, envMem, envSet, isEnvRef]

theorem genBindAux_map (k : β × Env → Gen γ) (f : α × Env → β × Env) :
    ∀ l : List (α × Env), genBindAux k (l.map f) = genBindAux (fun p => k (f p)) l := by
  intro l
  induction l with
  | nil => rfl
  | cons p ps ih => simp [genBindAux, ih]

theorem Gen.bind_mapP (g : Gen α) (f : α × Env → β × Env) (k : β × Env → Gen γ) :
    Gen.bind (Gen.mapP f g) k = Gen.bind g (fun p => k (f p)) := by
  simp [Gen.bind, Gen.mapP, genBindAux_map]

theorem genBindAux_pure (h : α × Env → β × Env) :
    ∀ l, genBindAux (fun p => Gen.mk [h p] none) l = ⟨l.map h, none⟩ := by
  intro l
  induction l with
  | nil => rfl
  | cons p ps ih => simp [genBindAux, ih]

theorem Gen.bind_pure (g : Gen α) (h : α × Env → β × Env) :
    Gen.bind g (fun p => ⟨[h p], none⟩) = Gen.mapP h g := by
  simp [Gen.bind, Gen.mapP, genBindAux_pure]

theorem Gen.bind_congr {g : Gen α} {f1 f2 : α × Env → Gen β} (h : ∀ p, f1 p = f2 p) :
    Gen.bind g f1 = Gen.bind g f2 := by
  rw [funext h]

theorem internal_execute_list (xs : List Expr) (env : Env) :
    internal_execute (.list xs) env = Gen.map Expr.list (execute_list xs env) := by
  simp [internal_execute]

theorem execute_list_nil (env : Env) : execute_list [] env = ⟨[([], env)], none⟩ := by
  simp [execute_list]

theorem execute_list_cons (x : Expr) (rest : List Expr) (env : Env) :
    execute_list (x :: rest) env =
      Gen.bind (internal_execute x env)
        (fun p => Gen.map (fun l => p.1 :: l) (execute_list rest p.2)) := by
  rw [show execute_list (x :: rest) env =
      Gen.bind (internal_execute x env) (fun p =>
        Gen.bind (internal_execute (.list rest) p.2) (fun q =>
          match q.1 with
          | .list l => ⟨[(p.1 :: l, q.2)], none⟩
          | _ => ⟨[], some .internalShape⟩)) from by simp [execute_list]]
  apply Gen.bind_congr
  intro p
  rw [internal_execute_list, Gen.map, Gen.bind_mapP]
  exact Gen.bind_pure _ _

/-- C1: Evaluating the empty list yields exactly one pair — the empty list with
the environment unchanged.  Evaluating a non-empty list `e :: rest` yields
`(v0 :: restList, env1)` for each candidate `(v0, env0)` of `e` under `env`
(outer loop) and each candidate `(restList, env1)` of the rest of the list
under `env0` (inner loop), in exactly that enumeration order. -/
theorem list_eval_cross_product (e : Expr) (rest : List Expr) (env : Env) :
    internal_execute (.list []) env = ⟨[(.list [], env)], none⟩ ∧
    execute_list [] env = ⟨[([], env)], none⟩ ∧
    execute_list (e :: rest) env =
      Gen.bind (internal_execute e env)
        (fun p => Gen.map (fun l => p.1 :: l) (execute_list rest p.2)) ∧
    internal_execute (.list (e :: rest)) env =
      Gen.map Expr.list (execute_list (e :: rest) env) := by
  refine ⟨?_, execute_list_nil env, execute_list_cons e rest env,
    internal_execute_list _ env⟩
  rw [internal_execute_list, execute_list_nil]
  rfl

theorem internal_execute_arg (n : String) (vs : List Expr) (a d : Bool) (env : Env) :
    internal_execute (.arg n vs a d) env =
      Gen.map (fun l => Expr.arg n l a d) (execute_list vs env) := by
  simp [internal_execute]

theorem internal_execute_letE (var : String) (value : Expr) (iu : Bool) (env : Env) :
    internal_execute (.letE var value iu) env =
      if !iu || !envMem env var then
        Gen.mapP (fun p => (Expr.letE var value iu, envSet p.2 var p.1))
          (internal_execute value env)
      else
        Gen.one (.letE var value iu) env := by
  simp [internal_execute]

theorem internal_execute_null (env : Env) :
    internal_execute .null env = Gen.one .null env := by
  simp [internal_execute]

theorem internal_execute_bool (b : Bool) (env : Env) :
    internal_execute (.bool b) env = Gen.one (.bool b) env := by
  simp [internal_execute]

theorem internal_execute_int (n : Int) (env : Env) :
    internal_execute (.int n) env = Gen.one (.int n) env := by
  simp [internal_execute]

theorem internal_execute_str (s : String) (env : Env) :
    internal_execute (.str s) env = Gen.one (.str s) env := by
  simp [internal_execute]

theorem internal_execute_selL (w : Expr) (xs : List Expr) (env : Env) :
    internal_execute (.selL w xs) env =
      match resolveWhich w env with
      | .error e => Gen.fail e
      | .ok wh => evalKeysL xs (canonWhich wh (keysL xs)) env := by
  simp [internal_execute]

theorem internal_execute_selD (w : Expr) (cs : List (Expr × Expr)) (env : Env) :
    internal_execute (.selD w cs) env =
      match resolveWhich w env with
      | .error e => Gen.fail e
      | .ok wh => evalKeysD cs (canonWhich wh (keysD cs)) env := by
  simp [internal_execute]

theorem evalKeysL_nil (xs : List Expr) (env : Env) :
    evalKeysL xs [] env = ⟨[], none⟩ := by
  simp [evalKeysL]

theorem evalKeysL_cons (xs : List Expr) (k : Expr) (ks : List Expr) (env : Env) :
    evalKeysL xs (k :: ks) env =
      match lookupChoiceL xs k with
      | none => Gen.fail (.unknownChoice k)
      | some c => Gen.seq (internal_execute c env) (evalKeysL xs ks env) := by
  simp only [evalKeysL]
  split <;> rename_i heq <;> simp [heq]

theorem evalKeysD_nil (cs : List (Expr × Expr)) (env : Env) :
    evalKeysD cs [] env = ⟨[], none⟩ := by
  simp [evalKeysD]

theorem evalKeysD_cons (cs : List (Expr × Expr)) (k : Expr) (ks : List Expr) (env : Env) :
    evalKeysD cs (k :: ks) env =
      match lookupChoiceD cs k with
      | none => Gen.fail (.unknownChoice k)
      | some c => Gen.seq (internal_execute c env) (evalKeysD cs ks env) := by
  simp only [evalKeysD]
  split <;> rename_i heq <;> simp [heq]

theorem Gen.mapP_err (f : α × Env → β × Env) (g : Gen α) : (Gen.mapP f g).err = g.err := rfl

theorem Gen.map_err (f : α → β) (g : Gen α) : (Gen.map f g).err = g.err := rfl

theorem Gen.seq_err_cases {g h : Gen α} {E : Err} (he : (Gen.seq g h).err = some E) :
    g.err = some E ∨ h.err = some E := by
  unfold Gen.seq at he
  split at he
  · left; exact he
  · right; exact he

theorem genBindAux_err_cases {f : α × Env → Gen β} {E : Err} :
    ∀ {l : List (α × Env)}, (genBindAux f l).err = some E →
      ∃ p ∈ l, (f p).err = some E := by
  intro l
  induction l with
  | nil => intro h; cases h
  | cons p ps ih =>
      intro h
      unfold genBindAux at h
      split at h
      · exact ⟨p, List.mem_cons_self _ _, by simp_all⟩
      · obtain ⟨q, hq, hqe⟩ := ih h
        exact ⟨q, List.mem_cons_of_mem _ hq, hqe⟩

theorem Gen.bind_err_cases {g : Gen α} {f : α × Env → Gen β} {E : Err}
    (h : (Gen.bind g f).err = some E) :
    g.err = some E ∨ ∃ p ∈ g.out, (f p).err = some E := by
  unfold Gen.bind at h
  split at h
  · right
    refine genBindAux_err_cases ?_
    simp_all
  · left; exact h

theorem internal_execute_list_shape {xs : List Expr} {env : Env} {q : Expr × Env}
    (h : q ∈ (internal_execute (.list xs) env).out) : ∃ l, q.1 = Expr.list l := by
  rw [internal_execute_list] at h
  simp only [Gen.map, Gen.mapP, List.mem_map] at h
  obtain ⟨r, _, hr⟩ := h
  exact ⟨r.1, by rw [← hr]⟩

theorem lookup_env_err {env : Env} {s : String} {e : Err}
    (h : lookup_env env s = .error e) : e = .undefinedVariable s := by
  unfold lookup_env at h
  split at h
  · injection h with h
    exact h.symm
  · cases h

theorem resolveWhich_err {w : Expr} {env : Env} {e : Err}
    (h : resolveWhich w env = .error e) : ∃ key, e = .undefinedVariable key := by
  unfold resolveWhich at h
  split at h
  · split at h
    · exact ⟨_, lookup_env_err h⟩
    · cases h
  · cases h

theorem evalKeysL_err_cases {xs : List Expr} {env : Env} {E : Err} :
    ∀ {ks : List Expr}, (evalKeysL xs ks env).err = some E →
      (∃ k, k ∈ ks ∧ lookupChoiceL xs k = none ∧ E = .unknownChoice k) ∨
      (∃ k c, k ∈ ks ∧ lookupChoiceL xs k = some c ∧
        (internal_execute c env).err = some E) := by
  intro ks
  induction ks with
  | nil => intro h; rw [evalKeysL_nil] at h; cases h
  | cons k ks ih =>
      intro h
      rw [evalKeysL_cons] at h
      cases hl : lookupChoiceL xs k with
      | none =>
          rw [hl] at h
          simp only [Gen.fail] at h
          injection h with h
          exact Or.inl ⟨k, List.mem_cons_self _ _, hl, h.symm⟩
      | some c =>
          rw [hl] at h
          rcases Gen.seq_err_cases h with h1 | h2
          · exact Or.inr ⟨k, c, List.mem_cons_self _ _, hl, h1⟩
          · rcases ih h2 with ⟨k1, hk1, hlk1, hE⟩ | ⟨k1, c1, hk1, hlk1, he1⟩
            · exact Or.inl ⟨k1, List.mem_cons_of_mem _ hk1, hlk1, hE⟩
            · exact Or.inr ⟨k1, c1, List.mem_cons_of_mem _ hk1, hlk1, he1⟩

theorem evalKeysD_err_cases {cs : List (Expr × Expr)} {env : Env} {E : Err} :
    ∀ {ks : List Expr}, (evalKeysD cs ks env).err = some E →
      (∃ k, k ∈ ks ∧ lookupChoiceD cs k = none ∧ E = .unknownChoice k) ∨
      (∃ k c, k ∈ ks ∧ lookupChoiceD cs k = some c ∧
        (internal_execute c env).err = some E) := by
  intro ks
  induction ks with
  | nil => intro h; rw [evalKeysD_nil] at h; cases h
  | cons k ks ih =>
      intro h
      rw [evalKeysD_cons] at h
      cases hl : lookupChoiceD cs k with
      | none =>
          rw [hl] at h
          simp only [Gen.fail] at h
          injection h with h
          exact Or.inl ⟨k, List.mem_cons_self _ _, hl, h.symm⟩
      | some c =>
          rw [hl] at h
          rcases Gen.seq_err_cases h with h1 | h2
          · exact Or.inr ⟨k, c, List.mem_cons_self _ _, hl, h1⟩
          · rcases ih h2 with ⟨k1, hk1, hlk1, hE⟩ | ⟨k1, c1, hk1, hlk1, he1⟩
            · exact Or.inl ⟨k1, List.mem_cons_of_mem _ hk1, hlk1, hE⟩
            · exact Or.inr ⟨k1, c1, List.mem_cons_of_mem _ hk1, hlk1, he1⟩

mutual

theorem internal_execute_no_shape (e : Expr) (env : Env) :
    (internal_execute e env).err ≠ some .internalShape := by
  cases e with
  | null => rw [internal_execute_null]; intro h; cases h
  | bool b => rw [internal_execute_bool]; intro h; cases h
  | int n => rw [internal_execute_int]; intro h; cases h
  | str s => rw [internal_execute_str]; intro h; cases h
  | list xs =>
      rw [internal_execute_list, Gen.map_err]
      exact execute_list_no_shape xs env
  | arg n vs a d =>
      rw [internal_execute_arg, Gen.map_err]
      exact execute_list_no_shape vs env
  | letE var value iu =>
      rw [internal_execute_letE]
      split
      · rw [Gen.mapP_err]
        exact internal_execute_no_shape value env
      · intro h; cases h
  | selL w xs =>
      rw [internal_execute_selL]
      cases hw : resolveWhich w env with
      | error e =>
          intro h
          simp only [Gen.fail] at h
          injection h with h
          obtain ⟨key, hkey⟩ := resolveWhich_err hw
          rw [hkey] at h
          cases h
      | ok wh =>
          intro h
          rcases evalKeysL_err_cases h with ⟨k, _, _, hE⟩ | ⟨k, c, hk, hlk, he⟩
          · cases hE
          · exact internal_execute_no_shape c env he
  | selD w cs =>
      rw [internal_execute_selD]
      cases hw : resolveWhich w env with
      | error e =>
          intro h
          simp only [Gen.fail] at h
          injection h with h
          obtain ⟨key, hkey⟩ := resolveWhich_err hw
          rw [hkey] at h
          cases h
      | ok wh =>
          intro h
          rcases evalKeysD_err_cases h with ⟨k, _, _, hE⟩ | ⟨k, c, hk, hlk, he⟩
          · cases hE
          · exact internal_execute_no_shape c env he
termination_by (sizeOf e, 0, 0)
decreasing_by
  all_goals simp_wf
  all_goals
    first
      | (apply Prod.Lex.left; simp_arith; done)
      | (apply Prod.Lex.left; simp_arith; omega)
      | (apply Prod.Lex.left; exact sizeOf_lookupChoiceL (by assumption))
      | (apply Prod.Lex.left; exact sizeOf_lookupChoiceD (by assumption))
      | (apply Prod.Lex.left;
         have := sizeOf_lookupChoiceL (by assumption); simp_arith; omega)
      | (apply Prod.Lex.left;
         have := sizeOf_lookupChoiceD (by assumption); simp_arith; omega)

theorem execute_list_no_shape (xs : List Expr) (env : Env) :
    (execute_list xs env).err ≠ some .internalShape := by
  cases xs with
  | nil => rw [execute_list_nil]; intro h; cases h
  | cons x rest =>
      intro h
      rw [execute_list_cons] at h
      rcases Gen.bind_err_cases h with h1 | ⟨p, hp, h2⟩
      · exact internal_execute_no_shape x env h1
      · rw [Gen.map_err] at h2
        exact execute_list_no_shape rest p.2 h2
termination_by (sizeOf xs, 1, 0)
decreasing_by
  all_goals simp_wf
  all_goals
    first
      | (apply Prod.Lex.left; simp_arith; done)
      | (apply Prod.Lex.left; simp_arith; omega)
      | (apply Prod.Lex.left; have := Expr.sizeOf_pos x; simp_arith; omega)

end

/-- C10: every candidate the evaluator yields for a list expression resolves
to a list, so the internal shape-error branch of `execute_list` (taken when
the tail of a list evaluates to a non-list) is unreachable, and no evaluation
of any expression ever ends with the internal shape error. -/
theorem list_eval_shape_safe :
    (∀ (xs : List Expr) (env : Env) (q : Expr × Env),
        q ∈ (internal_execute (.list xs) env).out → ∃ l, q.1 = Expr.list l) ∧
    (∀ (e : Expr) (env : Env), (internal_execute e env).err ≠ some .internalShape) :=
  ⟨fun _ _ _ h => internal_execute_list_shape h,
   fun e env => internal_execute_no_shape e env⟩

theorem list_eval_shape_safe_witness :
    (∃ l, (Expr.list [.str "a"], ([] : Env)).1 = Expr.list l) ∧
    (internal_execute (.str "a") []).err ≠ some Err.internalShape := by
  constructor
  · refine list_eval_shape_safe.1 [.str "a"] [] (Expr.list [.str "a"], []) ?_
    simp [internal_execute, execute_list, Gen.map, Gen.mapP, Gen.bind, genBindAux,
      Gen.one]
  · exact list_eval_shape_safe.2 (.str "a") []

theorem flatten_list_eq (xs : List Expr) : flatten (.list xs) = flattenList xs := by
  simp [flatten]

theorem flatten_of_not_list {e : Expr} (h : e.isList = false) : flatten e = [e] := by
  cases e <;> simp [flatten] <;> cases h

mutual

theorem flatten_flat (e : Expr) : ∀ y ∈ flatten e, y.isList = false := by
  cases e with
  | list xs =>
      rw [flatten_list_eq]
      exact flattenList_flat xs
  | null => intro y hy; simp [flatten] at hy; rw [hy]; rfl
  | bool b => intro y hy; simp [flatten] at hy; rw [hy]; rfl
  | int n => intro y hy; simp [flatten] at hy; rw [hy]; rfl
  | str s => intro y hy; simp [flatten] at hy; rw [hy]; rfl
  | arg n vs a d => intro y hy; simp [flatten] at hy; rw [hy]; rfl
  | selL w cs => intro y hy; simp [flatten] at hy; rw [hy]; rfl
  | selD w cs => intro y hy; simp [flatten] at hy; rw [hy]; rfl
  | letE v e b => intro y hy; simp [flatten] at hy; rw [hy]; rfl
termination_by sizeOf e

theorem flattenList_flat (xs : List Expr) : ∀ y ∈ flattenList xs, y.isList = false := by
  cases xs with
  | nil => intro y hy; cases hy
  | cons x rest =>
      intro y hy
      rw [show flattenList (x :: rest) = flatten x ++ flattenList rest from by
        simp [flattenList]] at hy
      rcases List.mem_append.mp hy with h1 | h2
      · exact flatten_flat x y h1
      · exact flattenList_flat rest y h2
termination_by sizeOf xs

end

theorem flattenList_of_flat : ∀ xs : List Expr, (∀ y ∈ xs, y.isList = false) →
    flattenList xs = xs := by
  intro xs
  induction xs with
  | nil => intro _; simp [flattenList]
  | cons x rest ih =>
      intro h
      rw [show flattenList (x :: rest) = flatten x ++ flattenList rest from by
        simp [flattenList]]
      rw [flatten_of_not_list (h x (List.mem_cons_self _ _)),
        ih (fun y hy => h y (List.mem_cons_of_mem _ hy))]
      rfl

/-- C7: `flatten` is idempotent — flattening a flattening changes nothing —
and flattening an already-flat token list returns it unchanged. -/
theorem flatten_idempotent (x : Expr) (xs : List Expr)
    (h : ∀ y ∈ xs, y.isList = false) :
    flatten (.list (flatten x)) = flatten x ∧ flattenList xs = xs := by
  constructor
  · rw [flatten_list_eq]
    exact flattenList_of_flat _ (flatten_flat x)
  · exact flattenList_of_flat xs h

theorem flatten_idempotent_witness :
    flatten (.list (flatten (.list [.str "a", .list [.str "b"]])))
        = flatten (.list [.str "a", .list [.str "b"]]) ∧
    flattenList [.str "a", .str "b"] = [.str "a", .str "b"] :=
  flatten_idempotent (.list [.str "a", .list [.str "b"]]) [.str "a", .str "b"]
    (by decide)

theorem getVals_setVals_self : ∀ (av : ArgValues) (n : String) (vs : List Expr),
    getVals (setVals av n vs) n = some vs := by
  intro av n vs
  induction av with
  | nil => simp [setVals, getVals]
  | cons p rest ih =>
      obtain ⟨k, v⟩ := p
      by_cases h : k = n
      · simp [setVals, h, getVals]
      · simp [setVals, h, getVals, ih]

theorem getVals_setVals_other : ∀ (av : ArgValues) {n m : String} (vs : List Expr),
    m ≠ n → getVals (setVals av n vs) m = getVals av m := by
  intro av n m vs hm
  have hnm : ¬n = m := fun h => hm h.symm
  induction av with
  | nil => simp [setVals, getVals, hnm]
  | cons p rest ih =>
      obtain ⟨k, v⟩ := p
      by_cases h : k = n
      · subst h
        simp [setVals, getVals, hnm]
      · by_cases h2 : k = m
        · subst h2
          simp [setVals, getVals, h]
        · simp [setVals, getVals, h, h2, ih]

theorem getVals_delKey_other : ∀ (av : ArgValues) {n m : String},
    m ≠ n → getVals (delKey av n) m = getVals av m := by
  intro av n m hm
  have hnm : ¬n = m := fun h => hm h.symm
  induction av with
  | nil => simp [delKey]
  | cons p rest ih =>
      obtain ⟨k, v⟩ := p
      by_cases h : k = n
      · subst h
        simp [delKey, getVals, hnm]
      · by_cases h2 : k = m
        · subst h2
          simp [delKey, getVals, h]
        · simp [delKey, getVals, h, h2, ih]

theorem getVals_eq_none_iff (av : ArgValues) (n : String) :
    getVals av n = none ↔ n ∉ av.map Prod.fst := by
  induction av with
  | nil => simp [getVals]
  | cons p rest ih =>
      obtain ⟨k, v⟩ := p
      by_cases h : k = n
      · simp [getVals, h]
      · simp [getVals, h, ih, Ne.symm h]

theorem getVals_delKey_self : ∀ (av : ArgValues) (n : String),
    (av.map Prod.fst).Nodup → getVals (delKey av n) n = none := by
  intro av n hnd
  induction av with
  | nil => simp [delKey, getVals]
  | cons p rest ih =>
      obtain ⟨k, v⟩ := p
      simp only [List.map_cons, List.nodup_cons] at hnd
      by_cases h : k = n
      · subst h
        simp only [delKey, if_pos rfl]
        exact (getVals_eq_none_iff rest k).mpr hnd.1
      · simp [delKey, h, getVals, ih hnd.2]

theorem delKey_of_absent : ∀ (av : ArgValues) {n : String},
    getVals av n = none → delKey av n = av := by
  intro av n h
  induction av with
  | nil => simp [delKey]
  | cons p rest ih =>
      obtain ⟨k, v⟩ := p
      simp only [getVals] at h
      by_cases hk : k = n
      · simp [hk] at h
      · simp only [hk, if_neg] at h
        simp [delKey, hk, ih h]

theorem delKey_append_of_absent : ∀ (av av' : ArgValues) {n : String},
    getVals av n = none → delKey (av ++ av') n = av ++ delKey av' n := by
  intro av av' n h
  induction av with
  | nil => simp
  | cons p rest ih =>
      obtain ⟨k, v⟩ := p
      simp only [getVals] at h
      by_cases hk : k = n
      · simp [hk] at h
      · simp only [hk, if_neg] at h
        simp [delKey, hk, ih h]

theorem getVals_append_of_absent : ∀ (av av' : ArgValues) {n : String},
    getVals av n = none → getVals (av ++ av') n = getVals av' n := by
  intro av av' n h
  induction av with
  | nil => simp
  | cons p rest ih =>
      obtain ⟨k, v⟩ := p
      simp only [getVals] at h
      by_cases hk : k = n
      · simp [hk] at h
      · simp only [hk, if_neg] at h
        simp [getVals, hk, ih h]

theorem getVals_append_of_present : ∀ (av av' : ArgValues) {n : String} {v : List Expr},
    getVals av n = some v → getVals (av ++ av') n = some v := by
  intro av av' n v h
  induction av with
  | nil => simp [getVals] at h
  | cons p rest ih =>
      obtain ⟨k, w⟩ := p
      by_cases hk : k = n
      · subst hk
        simp only [getVals, eq_self_iff_true, if_true] at h
        injection h with h
        subst h
        simp [getVals]
      · simp only [getVals, if_neg hk] at h
        simp [getVals, hk, ih h]

theorem accumulate_pair (a b : Expr) (av : ArgValues) :
    accumulate [a, b] av = accumStep (accumStep av a) b := rfl

theorem accumStep_append_eq (av : ArgValues) (n : String) (vs : List Expr) :
    accumStep av (.arg n vs true false)
      = setVals (if (getVals av n).isSome then av else av ++ [(n, [])]) n
          ((getVals (if (getVals av n).isSome then av else av ++ [(n, [])]) n).getD []
            ++ vs) := rfl

theorem accumStep_delete_eq (av : ArgValues) (n : String) (vs : List Expr) :
    accumStep av (.arg n vs false true)
      = delKey (if (getVals av n).isSome then av else av ++ [(n, [])]) n := rfl

theorem accumStep_replace_eq (av : ArgValues) (n : String) (vs : List Expr) :
    accumStep av (.arg n vs false false)
      = setVals (if (getVals av n).isSome then av else av ++ [(n, [])]) n vs := rfl

/-- C4: in the accumulation pass, an Append-mode Argument extends the name's
current value list (an empty list is created first when the name is new), a
Delete-mode Argument removes the name's entry entirely (and is a no-op on the
mapping when the name is absent), and a Replace-mode Argument overwrites the
entry with its own values, creating it if absent; entries of other names are
untouched, so the last replace wins and appends accumulate. -/
theorem accumulate_modes (av : ArgValues) (n : String) (vs vs1 vs2 : List Expr)
    (hnd : (av.map Prod.fst).Nodup) :
    (getVals (accumStep av (.arg n vs true false)) n
        = some ((getVals av n).getD [] ++ vs)) ∧
    (getVals (accumStep av (.arg n vs false true)) n = none) ∧
    (getVals av n = none → accumStep av (.arg n vs false true) = av) ∧
    (getVals (accumStep av (.arg n vs false false)) n = some vs) ∧
    (∀ m, m ≠ n →
      getVals (accumStep av (.arg n vs true false)) m = getVals av m ∧
      getVals (accumStep av (.arg n vs false true)) m = getVals av m ∧
      getVals (accumStep av (.arg n vs false false)) m = getVals av m) ∧
    (getVals (accumulate [.arg n vs1 false false, .arg n vs2 false false] av) n
        = some vs2) ∧
    (getVals (accumulate [.arg n vs1 false false, .arg n vs2 true false] av) n
        = some (vs1 ++ vs2)) := by
  have hfresh : getVals ([(n, ([] : List Expr))] : ArgValues) n = some [] := by
    simp [getVals]
  refine ⟨?_, ?_, ?_, ?_, ?_, ?_, ?_⟩
  · cases hc : getVals av n with
    | some v => simp [accumStep_append_eq, hc, getVals_setVals_self]
    | none =>
        simp [accumStep_append_eq, hc, getVals_setVals_self,
          getVals_append_of_absent av [(n, [])] hc, hfresh]
  · cases hc : getVals av n with
    | some v =>
        simp only [accumStep_delete_eq, hc, Option.isSome_some, if_pos]
        exact getVals_delKey_self av n hnd
    | none =>
        simp only [accumStep_delete_eq, hc, Option.isSome_none, Bool.false_eq_true,
          if_false]
        apply getVals_delKey_self
        simp only [List.map_append, List.map_cons, List.map_nil]
        rw [List.nodup_append]
        refine ⟨hnd, List.nodup_singleton n, ?_⟩
        intro a ha
        simp only [List.mem_singleton]
        intro hb
        subst hb
        exact ((getVals_eq_none_iff av a).mp hc) ha
  · intro hc
    simp only [accumStep_delete_eq, hc, Option.isSome_none, Bool.false_eq_true,
      if_false]
    rw [delKey_append_of_absent av [(n, [])] hc]
    simp [delKey]
  · cases hc : getVals av n with
    | some v => simp [accumStep_replace_eq, hc, getVals_setVals_self]
    | none => simp [accumStep_replace_eq, hc, getVals_setVals_self]
  · intro m hm
    have hmn : ¬m = n := hm
    have habs : ∀ hc : getVals av n = none,
        getVals (av ++ [(n, ([] : List Expr))]) m = getVals av m := by
      intro hc
      cases hgm : getVals av m with
      | some w => exact getVals_append_of_present av _ hgm
      | none =>
          have hnm : ¬n = m := fun h => hmn h.symm
          rw [getVals_append_of_absent av _ hgm]
          simp [getVals, hnm, hgm]
    refine ⟨?_, ?_, ?_⟩
    · cases hc : getVals av n with
      | some v => simp [accumStep_append_eq, hc, getVals_setVals_other _ _ hm]
      | none =>
          simp [accumStep_append_eq, hc, getVals_setVals_other _ _ hm, habs hc]
    · cases hc : getVals av n with
      | some v => simp [accumStep_delete_eq, hc, getVals_delKey_other _ hm]
      | none =>
          simp [accumStep_delete_eq, hc, getVals_delKey_other _ hm, habs hc]
    · cases hc : getVals av n with
      | some v => simp [accumStep_replace_eq, hc, getVals_setVals_other _ _ hm]
      | none =>
          simp [accumStep_replace_eq, hc, getVals_setVals_other _ _ hm, habs hc]
  · rw [accumulate_pair]
    cases hc : getVals (accumStep av (.arg n vs1 false false)) n with
    | some v => simp [accumStep_replace_eq, hc, getVals_setVals_self]
    | none => simp [accumStep_replace_eq, hc, getVals_setVals_self]
  · rw [accumulate_pair]
    have h1 : getVals (accumStep av (.arg n vs1 false false)) n = some vs1 := by
      cases hc : getVals av n with
      | some v => simp [accumStep_replace_eq, hc, getVals_setVals_self]
      | none => simp [accumStep_replace_eq, hc, getVals_setVals_self]
    simp [accumStep_append_eq, h1, getVals_setVals_self]

theorem accumulate_modes_witness :
    getVals (accumStep [("x", [Expr.int 9])] (.arg "bar" [.int 3] true false)) "bar"
        = some [Expr.int 3] ∧
    getVals (accumStep [("bar", [Expr.int 9])] (.arg "bar" [] false true)) "bar"
        = none := by
  have h1 := accumulate_modes [("x", [Expr.int 9])] "bar" [.int 3] [] [] (by decide)
  have h2 := accumulate_modes [("bar", [Expr.int 9])] "bar" [] [] [] (by decide)
  refine ⟨?_, h2.2.1⟩
  have h3 := h1.1
  simpa [getVals] using h3

/-- Is this token an `Arg` with the given name? -/
def isArgNamed (n : String) : Expr → Bool
  | .arg m _ _ _ => m = n
  | _ => false

theorem emit_append : ∀ (xs ys : List Expr) (av : ArgValues),
    emit (xs ++ ys) av = emit xs av ++ emit ys (emitState xs av) := by
  intro xs
  induction xs with
  | nil => intro ys av; simp [emit, emitState]
  | cons e rest ih =>
      intro ys av
      cases e with
      | arg name values a d =>
          cases hg : getVals av name with
          | some vs => simp [emit, emitState, hg, ih]
          | none => simp [emit, emitState, hg, ih]
      | letE v e b => simp [emit, emitState, ih]
      | null => simp [emit, emitState, ih]
      | bool b => simp [emit, emitState, ih]
      | int n => simp [emit, emitState, ih]
      | str s => simp [emit, emitState, ih]
      | list l => simp [emit, emitState, ih]
      | selL w cs => simp [emit, emitState, ih]
      | selD w cs => simp [emit, emitState, ih]

theorem emitState_preserves : ∀ (xs : List Expr) (av : ArgValues) (n : String),
    (∀ t ∈ xs, isArgNamed n t = false) →
    getVals (emitState xs av) n = getVals av n := by
  intro xs
  induction xs with
  | nil => intro av n _; simp [emitState]
  | cons e rest ih =>
      intro av n h
      have hrest : ∀ t ∈ rest, isArgNamed n t = false :=
        fun t ht => h t (List.mem_cons_of_mem _ ht)
      cases e with
      | arg m values a d =>
          have hm : (m = n : Bool) = false := by
            have := h _ (List.mem_cons_self _ _)
            simpa [isArgNamed] using this
          have hmn : m ≠ n := by
            intro hcon
            rw [hcon] at hm
            simp at hm
          have hnm : n ≠ m := fun hcon => hmn hcon.symm
          cases hg : getVals av m with
          | some vs =>
              simp only [emitState, hg]
              rw [ih _ _ hrest, getVals_delKey_other _ hnm]
          | none =>
              simp only [emitState, hg]
              exact ih _ _ hrest
      | letE v e b => simp only [emitState]; exact ih _ _ hrest
      | null => simp only [emitState]; exact ih _ _ hrest
      | bool b => simp only [emitState]; exact ih _ _ hrest
      | int m => simp only [emitState]; exact ih _ _ hrest
      | str s => simp only [emitState]; exact ih _ _ hrest
      | list l => simp only [emitState]; exact ih _ _ hrest
      | selL w cs => simp only [emitState]; exact ih _ _ hrest
      | selD w cs => simp only [emitState]; exact ih _ _ hrest

/-- C2 counterexample: for the token sequence
`[Arg x 1, "b", Arg x delete, "c", Arg x 2, "d"]` — an Argument occurrence of
`x`, then a Delete-mode occurrence, then a Replace-mode occurrence — the
resolver emits `--x 2` at the position of the *first* occurrence (before
`"b"`), not at the position of the later Replace occurrence (after `"c"`). -/
theorem arg_resurrect_position_counterexample :
    interpret_args
        [.arg "x" [.int 1] false false, .str "b", .arg "x" [] false true,
         .str "c", .arg "x" [.int 2] false false, .str "d"]
      = [.str "--x", .int 2, .str "b", .str "c", .str "d"] ∧
    interpret_args
        [.arg "x" [.int 1] false false, .str "b", .arg "x" [] false true,
         .str "c", .arg "x" [.int 2] false false, .str "d"]
      ≠ [.str "b", .str "c", .str "--x", .int 2, .str "d"] := by
  constructor
  · rfl
  · intro h
    rw [show interpret_args
        [.arg "x" [.int 1] false false, .str "b", .arg "x" [] false true,
         .str "c", .arg "x" [.int 2] false false, .str "d"]
      = [.str "--x", .int 2, .str "b", .str "c", .str "d"] from rfl] at h
    simp at h

/-- C2 (amended): whenever the name of an Argument token survives
accumulation (in particular after a delete followed by a fresh
replace/append), the resolver emits the flag token and the accumulated values
at the position of the *first* occurrence of the name, and removes the entry
so all later occurrences (including the delete and the re-setting occurrence)
contribute nothing. -/
theorem arg_emitted_at_first_occurrence (pre post : List Expr) (n : String)
    (vs : List Expr) (a d : Bool)
    (hpre : ∀ t ∈ pre, isArgNamed n t = false)
    (hsurv : (getVals (accumulate (pre ++ .arg n vs a d :: post) []) n).isSome
      = true) :
    ∃ ws, getVals (accumulate (pre ++ .arg n vs a d :: post) []) n = some ws ∧
      interpret_args (pre ++ .arg n vs a d :: post) =
        emit pre (accumulate (pre ++ .arg n vs a d :: post) []) ++
        .str ("--" ++ n) :: ws ++
        emit post
          (delKey (emitState pre (accumulate (pre ++ .arg n vs a d :: post) [])) n) := by
  obtain ⟨ws, hws⟩ := Option.isSome_iff_exists.mp hsurv
  refine ⟨ws, hws, ?_⟩
  unfold interpret_args
  rw [emit_append]
  have hst : getVals (emitState pre (accumulate (pre ++ .arg n vs a d :: post) [])) n
      = some ws := by
    rw [emitState_preserves pre _ n hpre, hws]
  simp [emit, hst]

theorem arg_emitted_at_first_occurrence_witness :
    ∃ ws,
      getVals (accumulate
          ([.str "a"] ++ .arg "x" [.int 1] false false ::
            [.arg "x" [] false true, .arg "x" [.int 2] false false]) []) "x"
        = some ws ∧
      interpret_args
          ([.str "a"] ++ .arg "x" [.int 1] false false ::
            [.arg "x" [] false true, .arg "x" [.int 2] false false]) =
        emit [.str "a"] (accumulate
          ([.str "a"] ++ .arg "x" [.int 1] false false ::
            [.arg "x" [] false true, .arg "x" [.int 2] false false]) []) ++
        .str ("--" ++ "x") :: ws ++
        emit [.arg "x" [] false true, .arg "x" [.int 2] false false]
          (delKey (emitState [.str "a"] (accumulate
            ([.str "a"] ++ .arg "x" [.int 1] false false ::
              [.arg "x" [] false true, .arg "x" [.int 2] false false]) [])) "x") :=
  arg_emitted_at_first_occurrence [.str "a"]
    [.arg "x" [] false true, .arg "x" [.int 2] false false] "x" [.int 1] false false
    (by decide) (by rfl)

/-- Is this token an Argument or Binding marker? -/
def isMarker : Expr → Bool
  | .arg _ _ _ _ => true
  | .letE _ _ _ => true
  | _ => false

/-- An Argument token all of whose values are marker-free (trivially true for
every other token). -/
def argValuesClean : Expr → Bool
  | .arg _ vs _ _ => vs.all (fun v => !isMarker v)
  | _ => true

/-- Every value list stored in the accumulated mapping is marker-free. -/
def avClean (av : ArgValues) : Prop :=
  ∀ p ∈ av, ∀ v ∈ p.2, isMarker v = false

theorem mem_setVals : ∀ (av : ArgValues) (n : String) (vs : List Expr),
    ∀ q ∈ setVals av n vs, q ∈ av ∨ q.2 = vs := by
  intro av n vs
  induction av with
  | nil => intro q hq; simp [setVals] at hq; right; rw [hq]
  | cons p rest ih =>
      obtain ⟨k, v⟩ := p
      intro q hq
      by_cases h : k = n
      · simp only [setVals, if_pos h] at hq
        rcases List.mem_cons.mp hq with h1 | h2
        · right; rw [h1]
        · left; exact List.mem_cons_of_mem _ h2
      · simp only [setVals, if_neg h] at hq
        rcases List.mem_cons.mp hq with h1 | h2
        · left; rw [h1]; exact List.mem_cons_self _ _
        · rcases ih q h2 with h3 | h3
          · left; exact List.mem_cons_of_mem _ h3
          · right; exact h3

theorem mem_delKey : ∀ (av : ArgValues) (n : String),
    ∀ q ∈ delKey av n, q ∈ av := by
  intro av n
  induction av with
  | nil => intro q hq; simp [delKey] at hq
  | cons p rest ih =>
      obtain ⟨k, v⟩ := p
      intro q hq
      by_cases h : k = n
      · simp only [delKey, if_pos h] at hq
        exact List.mem_cons_of_mem _ hq
      · simp only [delKey, if_neg h] at hq
        rcases List.mem_cons.mp hq with h1 | h2
        · rw [h1]; exact List.mem_cons_self _ _
        · exact List.mem_cons_of_mem _ (ih q h2)

theorem getVals_mem : ∀ (av : ArgValues) {n : String} {vs : List Expr},
    getVals av n = some vs → (n, vs) ∈ av := by
  intro av n vs h
  induction av with
  | nil => simp [getVals] at h
  | cons p rest ih =>
      obtain ⟨k, v⟩ := p
      by_cases hk : k = n
      · subst hk
        simp only [getVals, eq_self_iff_true, if_true] at h
        injection h with h
        subst h
        exact List.mem_cons_self _ _
      · simp only [getVals, if_neg hk] at h
        exact List.mem_cons_of_mem _ (ih h)

theorem accumStep_clean {av : ArgValues} {e : Expr}
    (hav : avClean av) (he : argValuesClean e = true) :
    avClean (accumStep av e) := by
  cases e with
  | arg n vs a d =>
      have hvs : ∀ v ∈ vs, isMarker v = false := by
        simpa [argValuesClean] using he
      have hav1 : avClean (if (getVals av n).isSome then av else av ++ [(n, [])]) := by
        split
        · exact hav
        · intro p hp v hv
          rcases List.mem_append.mp hp with h1 | h2
          · exact hav p h1 v hv
          · simp at h2
            rw [h2] at hv
            simp at hv
      set av1 := if (getVals av n).isSome then av else av ++ [(n, [])] with hav1def
      by_cases ha : a
      · subst ha
        rw [show accumStep av (.arg n vs true d)
            = setVals av1 n ((getVals av1 n).getD [] ++ vs) from rfl]
        intro p hp v hv
        rcases mem_setVals av1 n _ p hp with h1 | h2
        · exact hav1 p h1 v hv
        · rw [h2] at hv
          rcases List.mem_append.mp hv with h3 | h4
          · cases hg : getVals av1 n with
            | none => rw [hg] at h3; simp at h3
            | some o =>
                rw [hg] at h3
                exact hav1 _ (getVals_mem av1 hg) v h3
          · exact hvs v h4
      · have ha' : a = false := by simpa using ha
        subst ha'
        by_cases hd : d
        · subst hd
          rw [show accumStep av (.arg n vs false true) = delKey av1 n from rfl]
          intro p hp v hv
          exact hav1 p (mem_delKey av1 n p hp) v hv
        · have hd' : d = false := by simpa using hd
          subst hd'
          rw [show accumStep av (.arg n vs false false) = setVals av1 n vs from rfl]
          intro p hp v hv
          rcases mem_setVals av1 n vs p hp with h1 | h2
          · exact hav1 p h1 v hv
          · rw [h2] at hv
            exact hvs v hv
  | null => exact hav
  | bool b => exact hav
  | int m => exact hav
  | str s => exact hav
  | list l => exact hav
  | selL w cs => exact hav
  | selD w cs => exact hav
  | letE v e b => exact hav

theorem accumulate_clean : ∀ (toks : List Expr) (av : ArgValues),
    avClean av → (∀ t ∈ toks, argValuesClean t = true) →
    avClean (accumulate toks av) := by
  intro toks
  induction toks with
  | nil => intro av hav _; exact hav
  | cons t rest ih =>
      intro av hav h
      rw [show accumulate (t :: rest) av = accumulate rest (accumStep av t) from rfl]
      exact ih _ (accumStep_clean hav (h t (List.mem_cons_self _ _)))
        (fun u hu => h u (List.mem_cons_of_mem _ hu))

theorem emit_marker_free : ∀ (toks : List Expr) (av : ArgValues),
    avClean av → ∀ u ∈ emit toks av, isMarker u = false := by
  intro toks
  induction toks with
  | nil => intro av _ u hu; simp [emit] at hu
  | cons t rest ih =>
      intro av hav u hu
      cases t with
      | arg name values a d =>
          cases hg : getVals av name with
          | some vs =>
              simp only [emit, hg] at hu
              rcases List.mem_cons.mp hu with h1 | h2
              · rw [h1]; rfl
              · rcases List.mem_append.mp h2 with h3 | h4
                · exact hav _ (getVals_mem av hg) u h3
                · refine ih (delKey av name) ?_ u h4
                  intro p hp v hv
                  exact hav p (mem_delKey av name p hp) v hv
          | none =>
              simp only [emit, hg] at hu
              exact ih av hav u hu
      | letE v e b =>
          simp only [emit] at hu
          exact ih av hav u hu
      | null =>
          simp only [emit] at hu
          rcases List.mem_cons.mp hu with h1 | h2
          · rw [h1]; rfl
          · exact ih av hav u h2
      | bool b =>
          simp only [emit] at hu
          rcases List.mem_cons.mp hu with h1 | h2
          · rw [h1]; rfl
          · exact ih av hav u h2
      | int m =>
          simp only [emit] at hu
          rcases List.mem_cons.mp hu with h1 | h2
          · rw [h1]; rfl
          · exact ih av hav u h2
      | str s =>
          simp only [emit] at hu
          rcases List.mem_cons.mp hu with h1 | h2
          · rw [h1]; rfl
          · exact ih av hav u h2
      | list l =>
          simp only [emit] at hu
          rcases List.mem_cons.mp hu with h1 | h2
          · rw [h1]; rfl
          · exact ih av hav u h2
      | selL w cs =>
          simp only [emit] at hu
          rcases List.mem_cons.mp hu with h1 | h2
          · rw [h1]; rfl
          · exact ih av hav u h2
      | selD w cs =>
          simp only [emit] at hu
          rcases List.mem_cons.mp hu with h1 | h2
          · rw [h1]; rfl
          · exact ih av hav u h2

/-- C3 counterexample: an Argument token whose values contain an Argument
node re-emits that nested Argument verbatim, so the resolver's output can
contain an Argument marker. -/
theorem resolver_marker_counterexample :
    interpret_args [.arg "x" [.arg "y" [] false false] false false]
      = [.str "--x", .arg "y" [] false false] ∧
    (Expr.arg "y" [] false false)
      ∈ interpret_args [.arg "x" [.arg "y" [] false false] false false] := by
  constructor
  · rfl
  · rw [show interpret_args [.arg "x" [.arg "y" [] false false] false false]
        = [.str "--x", .arg "y" [] false false] from rfl]
    exact List.mem_cons_of_mem _ (List.mem_cons_self _ _)

/-- C3 (amended): when no Argument token's values contain an Argument or
Binding node, the resolver's output contains no Argument and no Binding
marker: every Argument token is dropped or replaced by the flag string
followed by its accumulated values, and every Binding token is dropped. -/
theorem resolver_output_marker_free (toks : List Expr)
    (h : ∀ t ∈ toks, argValuesClean t = true) :
    ∀ u ∈ interpret_args toks, isMarker u = false := by
  intro u hu
  unfold interpret_args at hu
  refine emit_marker_free toks _ ?_ u hu
  refine accumulate_clean toks [] ?_ h
  intro p hp
  simp at hp

theorem resolver_output_marker_free_witness :
    isMarker (Expr.str "--bar") = false :=
  resolver_output_marker_free
    [.str "foo", .arg "bar" [.int 3] false false, .letE "@x" (.int 1) false]
    (by decide) (.str "--bar")
    (by rw [show interpret_args
          [.str "foo", .arg "bar" [.int 3] false false, .letE "@x" (.int 1) false]
          = [.str "foo", .str "--bar", .int 3] from rfl]
        exact List.mem_cons_of_mem _ (List.mem_cons_self _ _))

theorem Gen.seq_err_none {g h : Gen α} (he : (Gen.seq g h).err = none) :
    g.err = none ∧ h.err = none ∧ (Gen.seq g h).out = g.out ++ h.out := by
  cases hg : g.err with
  | some e => simp [Gen.seq, hg] at he
  | none =>
      have h1 : Gen.seq g h = ⟨g.out ++ h.out, h.err⟩ := by simp [Gen.seq, hg]
      rw [h1] at he
      exact ⟨rfl, he, by rw [h1]⟩

/-- The union of branch outputs of a dict-form Selector: each key's choice is
evaluated under the same environment `env`. -/
def selJoin (cs : List (Expr × Expr)) (env : Env) (ks : List Expr) :
    List (Expr × Env) :=
  ks.foldr
    (fun k acc =>
      (match lookupChoiceD cs k with
       | some c => (internal_execute c env).out
       | none => []) ++ acc)
    []

theorem selJoin_nil (cs : List (Expr × Expr)) (env : Env) :
    selJoin cs env [] = [] := rfl

theorem selJoin_cons (cs : List (Expr × Expr)) (env : Env) (k : Expr)
    (ks : List Expr) :
    selJoin cs env (k :: ks) =
      (match lookupChoiceD cs k with
       | some c => (internal_execute c env).out
       | none => []) ++ selJoin cs env ks := rfl

theorem evalKeysD_out_join : ∀ (ks : List Expr) (cs : List (Expr × Expr)) (env : Env),
    (evalKeysD cs ks env).err = none →
    (evalKeysD cs ks env).out = selJoin cs env ks := by
  intro ks
  induction ks with
  | nil => intro cs env _; rw [evalKeysD_nil, selJoin_nil]
  | cons k ks ih =>
      intro cs env h
      rw [evalKeysD_cons] at h ⊢
      cases hl : lookupChoiceD cs k with
      | none =>
          rw [hl] at h
          simp [Gen.fail] at h
      | some c =>
          rw [hl] at h
          have h' : (Gen.seq (internal_execute c env) (evalKeysD cs ks env)).err
              = none := h
          obtain ⟨h1, h2, h3⟩ := Gen.seq_err_none h'
          show (Gen.seq (internal_execute c env) (evalKeysD cs ks env)).out = _
          rw [h3, selJoin_cons, hl, ih cs env h2]

/-- The union of branch outputs of a list-form Selector: each key's choice is
evaluated under the same environment `env`. -/
def selJoinL (xs : List Expr) (env : Env) (ks : List Expr) :
    List (Expr × Env) :=
  ks.foldr
    (fun k acc =>
      (match lookupChoiceL xs k with
       | some c => (internal_execute c env).out
       | none => []) ++ acc)
    []

theorem selJoinL_nil (xs : List Expr) (env : Env) :
    selJoinL xs env [] = [] := rfl

theorem selJoinL_cons (xs : List Expr) (env : Env) (k : Expr)
    (ks : List Expr) :
    selJoinL xs env (k :: ks) =
      (match lookupChoiceL xs k with
       | some c => (internal_execute c env).out
       | none => []) ++ selJoinL xs env ks := rfl

theorem evalKeysL_out_join : ∀ (ks : List Expr) (xs : List Expr) (env : Env),
    (evalKeysL xs ks env).err = none →
    (evalKeysL xs ks env).out = selJoinL xs env ks := by
  intro ks
  induction ks with
  | nil => intro xs env _; rw [evalKeysL_nil, selJoinL_nil]
  | cons k ks ih =>
      intro xs env h
      rw [evalKeysL_cons] at h ⊢
      cases hl : lookupChoiceL xs k with
      | none =>
          rw [hl] at h
          simp [Gen.fail] at h
      | some c =>
          rw [hl] at h
          have h' : (Gen.seq (internal_execute c env) (evalKeysL xs ks env)).err
              = none := h
          obtain ⟨h1, h2, h3⟩ := Gen.seq_err_none h'
          show (Gen.seq (internal_execute c env) (evalKeysL xs ks env)).out = _
          rw [h3, selJoinL_cons, hl, ih xs env h2]

/-- C5: Selector evaluation resolves `which` first (a string starting with
`@` is looked up in the environment, anything else is used literally), then
normalizes it to a key list (null selects all keys of the choices in their
defined order — insertion order for dict-form choices, `0..N-1` for list-form
choices — a non-list value becomes a one-element list, a list is used as-is),
and then yields, for each key in that order, every candidate of the key's
choice (`choices[key]`, plain indexing for list-form choices) evaluated under
the original environment — the environment is not threaded from one key's
branch to the next. -/
theorem selector_eval (s : String) (w wh : Expr) (cs : List (Expr × Expr))
    (xs l allKeys : List Expr) (env : Env) :
    (isEnvRef s = true → resolveWhich (.str s) env = lookup_env env s) ∧
    (isEnvRef s = false → resolveWhich (.str s) env = .ok (.str s)) ∧
    ((∀ t, w ≠ .str t) → resolveWhich w env = .ok w) ∧
    canonWhich .null allKeys = allKeys ∧
    canonWhich (.list l) allKeys = l ∧
    (w ≠ .null → (∀ ys, w ≠ .list ys) → canonWhich w allKeys = [w]) ∧
    keysD cs = cs.map Prod.fst ∧
    keysL xs = (List.range xs.length).map (fun j => Expr.int (Int.ofNat j)) ∧
    (∀ i : Nat, lookupChoiceL xs (.int (Int.ofNat i)) = xs.get? i) ∧
    (resolveWhich w env = .ok wh →
      internal_execute (.selD w cs) env
        = evalKeysD cs (canonWhich wh (keysD cs)) env) ∧
    (resolveWhich w env = .ok wh →
      internal_execute (.selL w xs) env
        = evalKeysL xs (canonWhich wh (keysL xs)) env) ∧
    (resolveWhich w env = .ok wh →
      (internal_execute (.selD w cs) env).err = none →
      (internal_execute (.selD w cs) env).out
        = selJoin cs env (canonWhich wh (keysD cs))) ∧
    (resolveWhich w env = .ok wh →
      (internal_execute (.selL w xs) env).err = none →
      (internal_execute (.selL w xs) env).out
        = selJoinL xs env (canonWhich wh (keysL xs))) := by
  have h10 : resolveWhich w env = .ok wh →
      internal_execute (.selD w cs) env
        = evalKeysD cs (canonWhich wh (keysD cs)) env := by
    intro h
    rw [internal_execute_selD, h]
  have h11 : resolveWhich w env = .ok wh →
      internal_execute (.selL w xs) env
        = evalKeysL xs (canonWhich wh (keysL xs)) env := by
    intro h
    rw [internal_execute_selL, h]
  refine ⟨?_, ?_, ?_, rfl, rfl, ?_, rfl, rfl, ?_, h10, h11, ?_, ?_⟩
  · intro h; simp [resolveWhich, h]
  · intro h; simp [resolveWhich, h]
  · intro h
    cases w with
    | str t => exact absurd rfl (h t)
    | null => rfl
    | bool b => rfl
    | int n => rfl
    | list ys => rfl
    | arg n vs a d => rfl
    | selL u ys => rfl
    | selD u ys => rfl
    | letE v e b => rfl
  · intro h1 h2
    cases w with
    | null => exact absurd rfl h1
    | list ys => exact absurd rfl (h2 ys)
    | str t => rfl
    | bool b => rfl
    | int n => rfl
    | arg n vs a d => rfl
    | selL u ys => rfl
    | selD u ys => rfl
    | letE v e b => rfl
  · intro i
    simp only [lookupChoiceL]
    by_cases hc : (0 : Int) ≤ Int.ofNat i ∧ (Int.ofNat i).toNat < xs.length
    · rw [dif_pos hc, List.get?_eq_get (show i < xs.length from hc.2)]
      rfl
    · rw [dif_neg hc]
      have hlen : xs.length ≤ i := by
        by_contra hlt
        push_neg at hlt
        exact hc ⟨Int.ofNat_nonneg i, by simpa using hlt⟩
      exact (List.get?_eq_none.mpr hlen).symm
  · intro h he
    rw [h10 h] at he ⊢
    exact evalKeysD_out_join _ cs env he
  · intro h he
    rw [h11 h] at he ⊢
    exact evalKeysL_out_join _ xs env he

theorem selector_eval_witness :
    (internal_execute (.selL .null [.str "bar", .str "baz"]) []).out
      = selJoinL [.str "bar", .str "baz"] []
          (canonWhich .null (keysL [.str "bar", .str "baz"])) := by
  refine (selector_eval "s" .null .null [] [.str "bar", .str "baz"] [] []
    []).2.2.2.2.2.2.2.2.2.2.2.2 rfl ?_
  simp [internal_execute, evalKeysL, resolveWhich, canonWhich, keysL,
    lookupChoiceL, Gen.seq, Gen.one, Gen.fail, List.range_succ]

theorem envLookup_envSet_self : ∀ (env : Env) (var : String) (v : Expr),
    envLookup (envSet env var v) var = some v := by
  intro env var v
  induction env with
  | nil => simp [envSet, envLookup]
  | cons p rest ih =>
      obtain ⟨k, w⟩ := p
      by_cases h : k = var
      · simp [envSet, h, envLookup]
      · simp [envSet, envLookup, h, ih]

theorem envLookup_envSet_other : ∀ (env : Env) {var m : String} (v : Expr),
    m ≠ var → envLookup (envSet env var v) m = envLookup env m := by
  intro env var m v hm
  have hvm : ¬var = m := fun h => hm h.symm
  induction env with
  | nil => simp [envSet, envLookup, hvm]
  | cons p rest ih =>
      obtain ⟨k, w⟩ := p
      by_cases h : k = var
      · subst h
        simp [envSet, envLookup, hvm]
      · by_cases h2 : k = m
        · subst h2
          simp [envSet, envLookup, h]
        · simp [envSet, envLookup, h, h2, ih]

/-- C6: a Binding with `ifUndefined` true whose variable is already bound
yields exactly one pair — the binding with the environment unchanged — and
the value expression is not evaluated (the result is error-free and
independent of the value); in every other case each candidate `(v, env')` of
the value yields the binding paired with `env'` extended so the variable maps
to `v`, overwriting any prior binding of that name and leaving other
variables untouched. -/
theorem binding_eval (var : String) (value : Expr) (iu : Bool) (env : Env) :
    (iu = true → envMem env var = true →
      internal_execute (.letE var value iu) env
        = ⟨[(.letE var value iu, env)], none⟩) ∧
    (iu = false ∨ envMem env var = false →
      internal_execute (.letE var value iu) env
        = Gen.mapP (fun p => (.letE var value iu, envSet p.2 var p.1))
            (internal_execute value env)) ∧
    (∀ (e' : Env) (v : Expr), envLookup (envSet e' var v) var = some v) ∧
    (∀ (e' : Env) (v : Expr) (m : String), m ≠ var →
      envLookup (envSet e' var v) m = envLookup e' m) := by
  refine ⟨?_, ?_, fun e' v => envLookup_envSet_self e' var v,
    fun e' v m hm => envLookup_envSet_other e' v hm⟩
  · intro h1 h2
    rw [internal_execute_letE]
    simp [h1, h2, Gen.one]
  · intro h
    rw [internal_execute_letE]
    rcases h with h | h <;> simp [h]

theorem binding_eval_witness :
    internal_execute (.letE "@x" (.selL (.str "@missing") []) true) [("@x", .int 1)]
      = ⟨[(.letE "@x" (.selL (.str "@missing") []) true, [("@x", .int 1)])], none⟩ :=
  (binding_eval "@x" (.selL (.str "@missing") []) true [("@x", .int 1)]).1 rfl
    (by rfl)

theorem genBindAux_out_of_err_none {f : α × Env → Gen β} :
    ∀ {l : List (α × Env)}, (genBindAux f l).err = none →
      (genBindAux f l).out = l.bind (fun p => (f p).out) := by
  intro l
  induction l with
  | nil => intro _; rfl
  | cons p ps ih =>
      intro h
      unfold genBindAux at h ⊢
      split at h
      · exact absurd h (by simp)
      · rename_i hf
        have h2 : (genBindAux f ps).err = none := h
        simp only []
        show (f p).out ++ (genBindAux f ps).out
          = (p :: ps).bind fun p => (f p).out
        rw [ih h2]
        rfl

theorem Gen.bind_err_none {g : Gen α} {f : α × Env → Gen β}
    (h : (Gen.bind g f).err = none) :
    g.err = none ∧ (Gen.bind g f).out = g.out.bind (fun p => (f p).out) := by
  unfold Gen.bind at h ⊢
  split at h
  · rename_i e hr2
    have h2 : (genBindAux f g.out).err = none := h
    rw [hr2] at h2
    cases h2
  · rename_i hr2
    have h2 : g.err = none := h
    exact ⟨h2, genBindAux_out_of_err_none hr2⟩

/-- C8: evaluation never mutates the environment it is given.  A Binding's
candidates carry a freshly constructed environment (`envSet` applied to the
value candidate's own environment), and in a list's cross product each
candidate of the head is continued with the tail evaluated from that
candidate's own snapshot alone, so a binding established inside one branch is
never observable in a sibling branch started from the same snapshot. -/
theorem env_snapshot_isolation (var : String) (value e : Expr) (rest : List Expr)
    (env : Env) :
    (∀ q ∈ (internal_execute (.letE var value false) env).out,
      q.1 = .letE var value false ∧
      ∃ p ∈ (internal_execute value env).out, q.2 = envSet p.2 var p.1) ∧
    ((execute_list (e :: rest) env).err = none →
      (execute_list (e :: rest) env).out
        = (internal_execute e env).out.bind
            (fun p => (execute_list rest p.2).out.map
              (fun q => (p.1 :: q.1, q.2)))) := by
  constructor
  · intro q hq
    rw [internal_execute_letE] at hq
    simp only [Bool.not_false, Bool.true_or, if_true, Gen.mapP, List.mem_map] at hq
    obtain ⟨p, hp, hqe⟩ := hq
    constructor
    · rw [← hqe]
    · exact ⟨p, hp, by rw [← hqe]⟩
  · intro h
    rw [execute_list_cons] at h ⊢
    obtain ⟨hg, hout⟩ := Gen.bind_err_none h
    rw [hout]
    rfl

theorem env_snapshot_isolation_witness :
    (execute_list (Expr.letE "@x" (.int 1) false :: [.str "b"]) []).out
      = (internal_execute (.letE "@x" (.int 1) false) []).out.bind
          (fun p => (execute_list [.str "b"] p.2).out.map
            (fun q => (p.1 :: q.1, q.2))) := by
  refine (env_snapshot_isolation "@x" (.int 1) (.letE "@x" (.int 1) false)
    [.str "b"] []).2 ?_
  simp [execute_list, internal_execute, Gen.bind, genBindAux, Gen.map, Gen.mapP,
    Gen.one, envMem, envLookup, envSet]

theorem evalKeysD_unknown : ∀ (ks1 : List Expr) (k : Expr) (ks2 : List Expr)
    (cs : List (Expr × Expr)) (env : Env),
    (∀ k1 ∈ ks1, ∃ c, lookupChoiceD cs k1 = some c ∧
      (internal_execute c env).err = none) →
    lookupChoiceD cs k = none →
    evalKeysD cs (ks1 ++ k :: ks2) env
      = ⟨selJoin cs env ks1, some (.unknownChoice k)⟩ := by
  intro ks1
  induction ks1 with
  | nil =>
      intro k ks2 cs env _ hk
      rw [List.nil_append, evalKeysD_cons, hk]
      rfl
  | cons k1 ks1 ih =>
      intro k ks2 cs env hall hk
      obtain ⟨c, hc, hcerr⟩ := hall k1 (List.mem_cons_self _ _)
      rw [List.cons_append, evalKeysD_cons, hc,
        ih k ks2 cs env (fun x hx => hall x (List.mem_cons_of_mem _ hx)) hk,
        selJoin_cons, hc]
      simp [Gen.seq, hcerr]

theorem evalKeysL_unknown : ∀ (ks1 : List Expr) (k : Expr) (ks2 : List Expr)
    (xs : List Expr) (env : Env),
    (∀ k1 ∈ ks1, ∃ c, lookupChoiceL xs k1 = some c ∧
      (internal_execute c env).err = none) →
    lookupChoiceL xs k = none →
    evalKeysL xs (ks1 ++ k :: ks2) env
      = ⟨selJoinL xs env ks1, some (.unknownChoice k)⟩ := by
  intro ks1
  induction ks1 with
  | nil =>
      intro k ks2 xs env _ hk
      rw [List.nil_append, evalKeysL_cons, hk]
      rfl
  | cons k1 ks1 ih =>
      intro k ks2 xs env hall hk
      obtain ⟨c, hc, hcerr⟩ := hall k1 (List.mem_cons_self _ _)
      rw [List.cons_append, evalKeysL_cons, hc,
        ih k ks2 xs env (fun x hx => hall x (List.mem_cons_of_mem _ hx)) hk,
        selJoinL_cons, hc]
      simp [Gen.seq, hcerr]

/-- C9: a Selector key absent from the choices — for dict-form or list-form
choices alike — raises `unknownChoice` at the point it is reached: the
enumeration ends with exactly the candidates already yielded for the earlier
keys, and nothing further is produced; an environment lookup of an absent
variable raises `undefinedVariable`, and a Selector whose `@`-reference
`which` names an absent variable fails before yielding any candidate. -/
theorem selector_error_abort (s : String) (w wh k : Expr)
    (ks1 ks2 : List Expr) (cs : List (Expr × Expr)) (xs : List Expr)
    (env : Env) :
    (envLookup env s = none →
      lookup_env env s = .error (.undefinedVariable s)) ∧
    (isEnvRef s = true → envLookup env s = none →
      internal_execute (.selD (.str s) cs) env
        = Gen.fail (.undefinedVariable s)) ∧
    (isEnvRef s = true → envLookup env s = none →
      internal_execute (.selL (.str s) xs) env
        = Gen.fail (.undefinedVariable s)) ∧
    (resolveWhich w env = .ok wh →
      canonWhich wh (keysD cs) = ks1 ++ k :: ks2 →
      (∀ k1 ∈ ks1, ∃ c, lookupChoiceD cs k1 = some c ∧
        (internal_execute c env).err = none) →
      lookupChoiceD cs k = none →
      internal_execute (.selD w cs) env
        = ⟨selJoin cs env ks1, some (.unknownChoice k)⟩) ∧
    (resolveWhich w env = .ok wh →
      canonWhich wh (keysL xs) = ks1 ++ k :: ks2 →
      (∀ k1 ∈ ks1, ∃ c, lookupChoiceL xs k1 = some c ∧
        (internal_execute c env).err = none) →
      lookupChoiceL xs k = none →
      internal_execute (.selL w xs) env
        = ⟨selJoinL xs env ks1, some (.unknownChoice k)⟩) := by
  refine ⟨?_, ?_, ?_, ?_, ?_⟩
  · intro h; simp [lookup_env, h]
  · intro h1 h2
    rw [internal_execute_selD]
    rw [show resolveWhich (.str s) env = .error (.undefinedVariable s) from by
      simp [resolveWhich, h1, lookup_env, h2]]
  · intro h1 h2
    rw [internal_execute_selL]
    rw [show resolveWhich (.str s) env = .error (.undefinedVariable s) from by
      simp [resolveWhich, h1, lookup_env, h2]]
  · intro hr hcanon hall hk
    rw [internal_execute_selD, hr]
    show evalKeysD cs (canonWhich wh (keysD cs)) env = _
    rw [hcanon]
    exact evalKeysD_unknown ks1 k ks2 cs env hall hk
  · intro hr hcanon hall hk
    rw [internal_execute_selL, hr]
    show evalKeysL xs (canonWhich wh (keysL xs)) env = _
    rw [hcanon]
    exact evalKeysL_unknown ks1 k ks2 xs env hall hk

theorem selector_error_abort_witness :
    internal_execute (.selL (.list [.int 0, .int 5]) [.int 7]) []
      = ⟨selJoinL [.int 7] [] [.int 0], some (.unknownChoice (.int 5))⟩ :=
  (selector_error_abort "s" (.list [.int 0, .int 5]) (.list [.int 0, .int 5])
    (.int 5) [.int 0] [] [] [.int 7] []).2.2.2.2 rfl rfl
    (by intro k1 hk1
        rw [List.mem_singleton] at hk1
        subst hk1
        exact ⟨.int 7, rfl, by simp [internal_execute, Gen.one]⟩)
    rfl
